import Mathlib

/-!
Verification of the binning and stereological-correction engine of the
MORB-CO2-vesicles repository (`stereology.py`), as a shallow embedding.

Numeric arrays become Lean functions `ℕ → ℚ` (or `ℕ → ℝ` where the code
applies transcendental functions), python lists become `List ℚ`, and the
fallible python list indexing in `Saltikov.to_nv` becomes `Option`-valued
computation.  `np.sqrt` (applied by `SahagianProussevitch` to float data)
is a function parameter of the embedding, and the irrational geometric bin
ratio `10 ** (-0.1)` is a rational parameter `r` constrained by
`0 < r < 1`, the property the actual constant satisfies.
-/

/-! ### Bin construction (`Bins._create_bins`) -/

/-- `np.max` over a list of sizes (0 on the empty array, which numpy rejects). -/

def npMax : List ℚ → ℚ
  | [] => 0
  | x :: xs => xs.foldl max x

/-- `np.min` over a list of sizes (0 on the empty array, which numpy rejects). -/

def npMin : List ℚ → ℚ
  | [] => 0
  | x :: xs => xs.foldl min x

/-- The factor `1.0000001` applied to the maximum in linear bin construction. -/

def epsHi : ℚ := 10000001 / 10000000

/-- The factor `0.9999999` applied to the minimum in linear bin construction. -/

def epsLo : ℚ := 9999999 / 10000000

/-- Linear bin edges: `np.linspace(max(v)*1.0000001, min(v)*0.9999999, N+1)`,
so edge `i` is `start + (stop - start) * i / N` for `i = 0..N`. -/

def linEdges (l : List ℚ) (N : ℕ) (i : ℕ) : ℚ :=
  npMax l * epsHi + (npMin l * epsLo - npMax l * epsHi) * i / N

/-- Geometric bin edges: `np.max(v) * 10 ** (-0.1 * i)`, with the fixed ratio
`10 ** (-0.1)` abstracted as a rational `r` (the real constant lies in `(0,1)`). -/

def geomEdges (l : List ℚ) (r : ℚ) (i : ℕ) : ℚ :=
  npMax l * r ^ i

/-- Bin widths: `abs(bin_edges[1:] - bin_edges[:-1])`. -/

def binWidth (edges : ℕ → ℚ) (i : ℕ) : ℚ :=
  |edges (i + 1) - edges i|

/-- Bin centers: `bin_edges[:-1] - bin_widths / 2`. -/

def binCenter (edges : ℕ → ℚ) (i : ℕ) : ℚ :=
  edges i - binWidth edges i / 2

/-! ### Bin assignment (`Bins.bin_data`)

`np.digitize(v, edges, right=True)` on a strictly descending edge array
returns the index `i` with `edges[i-1] >= v > edges[i]` (0 when `v` exceeds
every edge, `len(edges)` when `v` is at or below them all); numpy computes it
as `len(edges) - searchsorted(edges[::-1], v, side='left')`, i.e. the number
of edges that are `>= v`.  `bin_data` subtracts 1 from that count. -/

/-- `np.digitize(v, edges, right=True)` for a descending edge array of `M`
entries: the number of edges `>= v`. -/

def digitizeDesc (edges : ℕ → ℚ) (M : ℕ) (v : ℚ) : ℕ :=
  ((Finset.range M).filter (fun k => v ≤ edges k)).card

/-- The assigned bin index of measurement `v`: `np.digitize(..., right=True) - 1`. -/

def binIdx (edges : ℕ → ℚ) (M : ℕ) (v : ℚ) : ℤ :=
  (digitizeDesc edges M v : ℤ) - 1

/-! ### Per-bin aggregates (`Bins.compute_na`, `Bins.compute_hbar`) -/

/-- Area density of bin `i`: `len(ind[ind == i]) / roi_area`. -/

def computeNa (edges : ℕ → ℚ) (M : ℕ) (l : List ℚ) (roiArea : ℚ) (i : ℕ) : ℚ :=
  ((l.countP (fun v => decide (binIdx edges M v = (i : ℤ)))) : ℚ) / roiArea

/-- The number of measurements whose assigned bin index lies in `[0, N)`. -/

def inRangeCount (edges : ℕ → ℚ) (M : ℕ) (l : List ℚ) (N : ℕ) : ℕ :=
  l.countP (fun v => decide (0 ≤ binIdx edges M v ∧ binIdx edges M v < (N : ℤ)))

/-- The measurements assigned to bin `i`: `self.vesicles[self.ind == i]`, with
the per-measurement index given by the function `idx`. -/

def binVesicles (meas : List ℚ) (idx : ℚ → ℤ) (i : ℕ) : List ℚ :=
  meas.filter (fun v => decide (idx v = (i : ℤ)))

/-- numpy truthiness test `arr.any()`: some entry is nonzero. -/

def npAnyNonzero (l : List ℚ) : Bool :=
  l.any (fun v => decide (v ≠ 0))

/-- `np.mean`: sum divided by length. -/

def npMean (l : List ℚ) : ℚ :=
  l.sum / (l.length : ℚ)

/-- `np.median`: middle element of the sorted data, or the mean of the two
middle elements when the length is even. -/

def npMedian (l : List ℚ) : ℚ :=
  if l.length % 2 = 1 then (l.mergeSort (fun a b => decide (a ≤ b))).getD (l.length / 2) 0
  else ((l.mergeSort (fun a b => decide (a ≤ b))).getD (l.length / 2 - 1) 0 +
        (l.mergeSort (fun a b => decide (a ≤ b))).getD (l.length / 2) 0) / 2

/-- `getattr(np, method)(in_vesicles)` for the characteristic-size methods the
code is specified for (`mean` and `median`); other method strings are outside
the reference behavior. -/

def hbarAggregate (method : String) (l : List ℚ) : ℚ :=
  if method = "mean" then npMean l
  else if method = "median" then npMedian l
  else 0

/-- One entry of `Bins.compute_hbar`: the characteristic size of bin `i`
together with a flag recording whether the empty-bin advisory was emitted.
Mirrors the code: the `bin_center` method copies the center; otherwise, if
`in_vesicles.any()` is false the center is used and a `RuntimeWarning` is
emitted, else the configured numpy aggregate of the bin's measurements. -/

def computeHbar (method : String) (centers : ℕ → ℚ) (meas : List ℚ) (idx : ℚ → ℤ)
    (i : ℕ) : ℚ × Bool :=
  if method = "bin_center" then (centers i, false)
  else if npAnyNonzero (binVesicles meas idx i) = false then (centers i, true)
  else (hbarAggregate method (binVesicles meas idx i), false)

/-! ### Characterization of right-inclusive digitization on descending edges -/

/-- The edge array `edges 0 .. edges (M-1)` is strictly descending. -/

def DescOn (edges : ℕ → ℚ) (M : ℕ) : Prop :=
  ∀ j ∈ Finset.range M, ∀ k ∈ Finset.range M, j < k → edges k < edges j

/-! ### Simple area/volume correction (`ChengLemlich.to_nv`) -/

/-- `ChengLemlich.to_nv`: `nv = np.divide(na, hbar)`, element-wise. -/

def clNv (na hbar : ℕ → ℚ) (i : ℕ) : ℚ :=
  na i / hbar i

/-! ### Geometric recursive unfolding (`SahagianProussevitch`)

`np.sqrt` is abstracted as a function parameter `sqrtF`; the embedding keeps
the exact arithmetic structure of the code around it. -/

/-- `SahagianProussevitch.intersection_probabilities`:
`(1/edges[0]) * (sqrt(edges[0]^2 - edges[i+1]^2) - sqrt(edges[0]^2 - edges[i]^2))`. -/

def interProb (sqrtF : ℚ → ℚ) (edges : ℕ → ℚ) (i : ℕ) : ℚ :=
  (1 / edges 0) *
    (sqrtF (edges 0 ^ 2 - edges (i + 1) ^ 2) - sqrtF (edges 0 ^ 2 - edges i ^ 2))

/-- `SahagianProussevitch.to_nv`: solved in increasing bin order, each entry
subtracting the accumulated contribution of previously solved entries:
`nv[i] = (1/(P[0]*hbar[i])) * (na[i] - sum_j P[j+1]*hbar[j+1]*nv[i-j-1])`. -/

def spNv (sqrtF : ℚ → ℚ) (edges na hbar : ℕ → ℚ) : ℕ → ℚ
  | i =>
    (1 / (interProb sqrtF edges 0 * hbar i)) *
      (na i - (Finset.range i).attach.sum (fun j =>
        interProb sqrtF edges (j.1 + 1) * hbar (j.1 + 1) *
          spNv sqrtF edges na hbar (i - j.1 - 1)))
termination_by i => i
decreasing_by
  have hj := Finset.mem_range.mp j.2
  omega

/-! ### Kernel-convolution unfolding (`Saltikov.to_nv`)

The python `coeff` is a 12-element list; `coeff[k]` raises `IndexError` for
`k >= 12`, which the embedding models with `Option`. -/

/-- The fixed published kernel `coeff` of `Saltikov.to_nv`. -/

def saltikovCoeff : List ℚ :=
  [16461/10000, -4561/10000, -1162/10000, -415/10000, -173/10000, -79/10000,
   -38/10000, -18/10000, -10/10000, -3/10000, -2/10000, -2/10000]

/-- Total view of the kernel (0 beyond index 11), used to state sums. -/

def saltikovCoeffFn (k : ℕ) : ℚ :=
  (saltikovCoeff.get? k).getD 0

/-- One step of the inner accumulation `na_sum = na_sum + coeff[k] * na[i-k]`;
`none` models the `IndexError` raised by `coeff[k]` for `k >= 12`. -/

def saltikovStep (na : ℕ → ℚ) (i : ℕ) (acc : Option ℚ) (k : ℕ) : Option ℚ :=
  acc.bind (fun s => (saltikovCoeff.get? k).map (fun c => s + c * na (i - k)))

/-- The accumulated `na_sum` for bin `i`: terms `coeff[k] * na[i-k]` for
`k = 0..i` (the code seeds with the `k = 0` term and loops `k = 1..i`). -/

def saltikovSum (na : ℕ → ℚ) (i : ℕ) : Option ℚ :=
  (List.range (i + 1)).foldl (saltikovStep na i) (some 0)

/-- Sequential evaluation of per-bin computations with early failure, the way
the python loop stops at the first raised exception. -/

def optionMapList (f : ℕ → Option ℚ) : List ℕ → Option (List ℚ)
  | [] => some []
  | a :: l => (f a).bind (fun b => (optionMapList f l).map (fun bs => b :: bs))

/-- `Saltikov.to_nv`: `nv[i] = 1/hbar[i] * na_sum` for `i = 0..N-1`, `none`
when any bin raises. -/

def saltikovNv (na hbar : ℕ → ℚ) (N : ℕ) : Option (List ℚ) :=
  optionMapList (fun i => (saltikovSum na i).map (fun s => 1 / hbar i * s))
    (List.range N)

/-! ### Log number density (`VSD.to_lnn`)

The code applies `np.log` to float data; the embedding uses `ℝ` with
`Real.log` / `Real.exp`. -/

/-- The doubling factor: the code multiplies the divisor by 2 whenever
`length_type != 'diameter'` (in particular for `'radius'`). -/

noncomputable def lnnFactor (lengthType : String) : ℝ :=
  if lengthType ≠ "diameter" then 2 else 1

/-- `divisor = bin_widths * 1e-3 * norm`, doubled for non-diameter data. -/

noncomputable def lnnDivisor (width norm : ℝ) (lengthType : String) : ℝ :=
  width * 1e-3 * norm * lnnFactor lengthType

/-- `n = np.divide(nv * 1e9, divisor)`. -/

noncomputable def toN (nv width norm : ℝ) (lengthType : String) : ℝ :=
  nv * 1e9 / lnnDivisor width norm lengthType

/-- `lnn = np.log(n)`. -/

noncomputable def toLnn (nv width norm : ℝ) (lengthType : String) : ℝ :=
  Real.log (toN nv width norm lengthType)

/-- The spec's recovery map: `nv = exp(lnn) * width * 1e-3 * norm * factor / 1e9`. -/

noncomputable def lnnRecover (lnn width norm : ℝ) (lengthType : String) : ℝ :=
  Real.exp lnn * width * 1e-3 * norm * lnnFactor lengthType / 1e9

/-! ### Concrete inputs used by witnesses and counterexamples -/

/-- A concrete two-measurement sample. -/

def cList : List ℚ := [1, 2]

/-- A concrete strictly descending edge array `4, 3, 2, 1`. -/

def cEdgesA : ℕ → ℚ := fun k => 4 - (k : ℚ)

/-- A concrete square root valid on the inputs where it is evaluated:
`cSqrt 16 = 4` and `cSqrt 0 = 0`. -/

def cSqrt : ℚ → ℚ := fun q => if q = 16 then 4 else 0

/-- Concrete edges `5, 3, 3, ...` for the geometric-unfolding counterexample
(`5^2 - 3^2 = 16` is a perfect square, so `cSqrt` is exact on it). -/

def cEdgesB : ℕ → ℚ := fun k => if k = 0 then 5 else 3

/-- The all-ones array. -/

def cOne : ℕ → ℚ := fun _ => 1

/-- A concrete index map sending measurements `≤ 1` to bin 0, the rest to bin 1. -/

def cIdx : ℚ → ℤ := fun v => if v ≤ 1 then 0 else 1

/-- A concrete constant bin-center array. -/

def cCenters : ℕ → ℚ := fun _ => 7

/-! ## Supporting lemmas and claims -/

/-! ### Basic facts about `npMax` / `npMin` -/

theorem npMax_cons (x : ℚ) (xs : List ℚ) : npMax (x :: xs) = xs.foldl max x := rfl

theorem npMin_cons (x : ℚ) (xs : List ℚ) : npMin (x :: xs) = xs.foldl min x := rfl

theorem le_foldl_max_init (x : ℚ) (xs : List ℚ) : x ≤ xs.foldl max x := by
  induction xs generalizing x with
  | nil => exact le_rfl
  | cons y ys ih => exact le_trans (le_max_left x y) (ih (max x y))

theorem le_foldl_max_mem (v x : ℚ) (xs : List ℚ) (hv : v ∈ xs) : v ≤ xs.foldl max x := by
  induction xs generalizing x with
  | nil => cases hv
  | cons y ys ih =>
    rcases List.mem_cons.mp hv with h | h
    · subst h
      exact le_trans (le_max_right x v) (le_foldl_max_init _ ys)
    · exact ih (max x y) h

theorem le_npMax (l : List ℚ) (v : ℚ) (hv : v ∈ l) : v ≤ npMax l := by
  match l with
  | [] => cases hv
  | x :: xs =>
    rw [npMax_cons]
    rcases List.mem_cons.mp hv with h | h
    · subst h
      exact le_foldl_max_init v xs
    · exact le_foldl_max_mem v x xs h

theorem foldl_min_le_init (x : ℚ) (xs : List ℚ) : xs.foldl min x ≤ x := by
  induction xs generalizing x with
  | nil => exact le_rfl
  | cons y ys ih => exact le_trans (ih (min x y)) (min_le_left x y)

theorem foldl_min_le_mem (v x : ℚ) (xs : List ℚ) (hv : v ∈ xs) : xs.foldl min x ≤ v := by
  induction xs generalizing x with
  | nil => cases hv
  | cons y ys ih =>
    rcases List.mem_cons.mp hv with h | h
    · subst h
      exact le_trans (foldl_min_le_init _ ys) (min_le_right x v)
    · exact ih (min x y) h

theorem npMin_le (l : List ℚ) (v : ℚ) (hv : v ∈ l) : npMin l ≤ v := by
  match l with
  | [] => cases hv
  | x :: xs =>
    rw [npMin_cons]
    rcases List.mem_cons.mp hv with h | h
    · subst h
      exact foldl_min_le_init v xs
    · exact foldl_min_le_mem v x xs h

theorem foldl_min_mem (x : ℚ) (xs : List ℚ) : xs.foldl min x = x ∨ xs.foldl min x ∈ xs := by
  induction xs generalizing x with
  | nil => exact Or.inl rfl
  | cons y ys ih =>
    rcases ih (min x y) with h | h
    · rcases min_cases x y with ⟨he, _⟩ | ⟨he, _⟩
      · exact Or.inl (h.trans he)
      · exact Or.inr (List.mem_cons.mpr (Or.inl (h.trans he)))
    · exact Or.inr (List.mem_cons.mpr (Or.inr h))

theorem npMin_mem (l : List ℚ) (hl : l ≠ []) : npMin l ∈ l := by
  match l with
  | [] => exact absurd rfl hl
  | x :: xs =>
    rw [npMin_cons]
    rcases foldl_min_mem x xs with h | h
    · rw [h]; exact List.mem_cons_self x xs
    · exact List.mem_cons.mpr (Or.inr h)

theorem foldl_max_mem (x : ℚ) (xs : List ℚ) : xs.foldl max x = x ∨ xs.foldl max x ∈ xs := by
  induction xs generalizing x with
  | nil => exact Or.inl rfl
  | cons y ys ih =>
    rcases ih (max x y) with h | h
    · rcases max_cases x y with ⟨he, _⟩ | ⟨he, _⟩
      · exact Or.inl (h.trans he)
      · exact Or.inr (List.mem_cons.mpr (Or.inl (h.trans he)))
    · exact Or.inr (List.mem_cons.mpr (Or.inr h))

theorem npMax_mem (l : List ℚ) (hl : l ≠ []) : npMax l ∈ l := by
  match l with
  | [] => exact absurd rfl hl
  | x :: xs =>
    rw [npMax_cons]
    rcases foldl_max_mem x xs with h | h
    · rw [h]; exact List.mem_cons_self x xs
    · exact List.mem_cons.mpr (Or.inr h)

theorem npMin_le_npMax (l : List ℚ) (hl : l ≠ []) : npMin l ≤ npMax l :=
  le_npMax l (npMin l) (npMin_mem l hl)

theorem npMax_pos (l : List ℚ) (hl : l ≠ []) (hpos : ∀ v ∈ l, 0 < v) : 0 < npMax l :=
  hpos (npMax l) (npMax_mem l hl)

theorem npMin_pos (l : List ℚ) (hl : l ≠ []) (hpos : ∀ v ∈ l, 0 < v) : 0 < npMin l :=
  hpos (npMin l) (npMin_mem l hl)

theorem descOn_anti (edges : ℕ → ℚ) (M : ℕ) (h : DescOn edges M) (j k : ℕ)
    (hjk : j ≤ k) (hk : k < M) : edges k ≤ edges j := by
  rcases eq_or_lt_of_le hjk with he | hlt
  · rw [he]
  · exact le_of_lt (h j (Finset.mem_range.mpr (lt_trans hlt hk)) k (Finset.mem_range.mpr hk) hlt)

theorem digitizeDesc_of_bracket (edges : ℕ → ℚ) (M : ℕ) (v : ℚ) (i : ℕ)
    (hdesc : DescOn edges M) (hi : i + 1 < M) (hv1 : v ≤ edges i) (hv2 : edges (i + 1) < v) :
    digitizeDesc edges M v = i + 1 := by
  unfold digitizeDesc
  have hfil : (Finset.range M).filter (fun k => v ≤ edges k) = Finset.range (i + 1) := by
    apply Finset.ext
    intro k
    constructor
    · intro hk
      obtain ⟨hkM, hkv⟩ := Finset.mem_filter.mp hk
      rw [Finset.mem_range]
      by_contra hle
      push_neg at hle
      have hek : edges k ≤ edges (i + 1) :=
        descOn_anti edges M hdesc (i + 1) k hle (Finset.mem_range.mp hkM)
      exact absurd hkv (not_le.mpr (lt_of_le_of_lt hek hv2))
    · intro hk
      have hki : k ≤ i := Nat.lt_succ_iff.mp (Finset.mem_range.mp hk)
      refine Finset.mem_filter.mpr ⟨Finset.mem_range.mpr ?_, ?_⟩
      · omega
      · exact le_trans hv1 (descOn_anti edges M hdesc k i hki (by omega))
  rw [hfil, Finset.card_range]

theorem digitizeDesc_top (edges : ℕ → ℚ) (M : ℕ) (v : ℚ)
    (hdesc : DescOn edges M) (hM : 0 < M) (hv : v = edges 0) :
    digitizeDesc edges M v = 1 := by
  unfold digitizeDesc
  have hfil : (Finset.range M).filter (fun k => v ≤ edges k) = {0} := by
    apply Finset.ext
    intro k
    constructor
    · intro hk
      obtain ⟨hkM, hkv⟩ := Finset.mem_filter.mp hk
      rw [Finset.mem_singleton]
      by_contra hne
      have hk0 : 0 < k := Nat.pos_of_ne_zero hne
      have := hdesc 0 (Finset.mem_range.mpr hM) k hkM hk0
      rw [← hv] at this
      exact absurd hkv (not_le.mpr this)
    · intro hk
      rw [Finset.mem_singleton] at hk
      subst hk
      exact Finset.mem_filter.mpr ⟨Finset.mem_range.mpr hM, le_of_eq hv⟩
  rw [hfil, Finset.card_singleton]

theorem digitizeDesc_bottom (edges : ℕ → ℚ) (M : ℕ) (v : ℚ)
    (hdesc : DescOn edges M) (hM : 0 < M) (hv : v ≤ edges (M - 1)) :
    digitizeDesc edges M v = M := by
  unfold digitizeDesc
  have hfil : (Finset.range M).filter (fun k => v ≤ edges k) = Finset.range M := by
    apply Finset.filter_true_of_mem
    intro k hk
    have hkM : k < M := Finset.mem_range.mp hk
    exact le_trans hv
      (descOn_anti edges M hdesc k (M - 1) (by omega) (by omega))
  rw [hfil, Finset.card_range]

theorem digitizeDesc_le (edges : ℕ → ℚ) (M : ℕ) (v : ℚ) : digitizeDesc edges M v ≤ M := by
  calc digitizeDesc edges M v ≤ (Finset.range M).card := Finset.card_filter_le _ _
  _ = M := Finset.card_range M

theorem digitizeDesc_pos (edges : ℕ → ℚ) (M : ℕ) (v : ℚ) (hM : 0 < M)
    (hv : v ≤ edges 0) : 0 < digitizeDesc edges M v := by
  apply Finset.card_pos.mpr
  exact ⟨0, Finset.mem_filter.mpr ⟨Finset.mem_range.mpr hM, hv⟩⟩

/-! ### Monotonicity of the constructed edges -/

theorem linEdges_zero (l : List ℚ) (N : ℕ) : linEdges l N 0 = npMax l * epsHi := by
  unfold linEdges
  push_cast
  ring

theorem geomEdges_zero (l : List ℚ) (r : ℚ) : geomEdges l r 0 = npMax l := by
  unfold geomEdges
  rw [pow_zero, mul_one]

theorem linEdges_gap (l : List ℚ) (N : ℕ) (hN : 0 < N) (i : ℕ) :
    linEdges l N i - linEdges l N (i + 1) =
      (npMax l * epsHi - npMin l * epsLo) / N := by
  have hN0 : (N : ℚ) ≠ 0 := Nat.cast_ne_zero.mpr (by omega)
  unfold linEdges
  push_cast
  field_simp
  ring

theorem linEdges_start_gt_stop (l : List ℚ) (hl : l ≠ []) (hpos : ∀ v ∈ l, 0 < v) :
    npMin l * epsLo < npMax l * epsHi := by
  have h1 : 0 < npMin l := npMin_pos l hl hpos
  have h2 : npMin l ≤ npMax l := npMin_le_npMax l hl
  have h3 : npMin l * epsLo < npMin l := by
    have : epsLo < 1 := by norm_num [epsLo]
    nlinarith
  have h4 : npMax l < npMax l * epsHi := by
    have : (1 : ℚ) < epsHi := by norm_num [epsHi]
    nlinarith
  linarith

theorem linEdges_succ_lt (l : List ℚ) (N : ℕ) (hl : l ≠ []) (hpos : ∀ v ∈ l, 0 < v)
    (hN : 0 < N) (i : ℕ) : linEdges l N (i + 1) < linEdges l N i := by
  have hgap := linEdges_gap l N hN i
  have hab := linEdges_start_gt_stop l hl hpos
  have hNpos : (0 : ℚ) < N := by exact_mod_cast hN
  have : 0 < (npMax l * epsHi - npMin l * epsLo) / N := div_pos (by linarith) hNpos
  linarith

theorem linEdges_strictAnti (l : List ℚ) (N : ℕ) (hl : l ≠ []) (hpos : ∀ v ∈ l, 0 < v)
    (hN : 0 < N) : StrictAnti (linEdges l N) :=
  strictAnti_nat_of_succ_lt (linEdges_succ_lt l N hl hpos hN)

theorem geomEdges_succ_lt (l : List ℚ) (r : ℚ) (hl : l ≠ []) (hpos : ∀ v ∈ l, 0 < v)
    (hr0 : 0 < r) (hr1 : r < 1) (i : ℕ) : geomEdges l r (i + 1) < geomEdges l r i := by
  have hmax : 0 < npMax l := npMax_pos l hl hpos
  unfold geomEdges
  have hpow : r ^ (i + 1) < r ^ i := by
    calc r ^ (i + 1) = r ^ i * r := by ring
    _ < r ^ i * 1 := by
        apply mul_lt_mul_of_pos_left hr1 (pow_pos hr0 i)
    _ = r ^ i := mul_one _
  exact mul_lt_mul_of_pos_left hpow hmax

theorem geomEdges_strictAnti (l : List ℚ) (r : ℚ) (hl : l ≠ []) (hpos : ∀ v ∈ l, 0 < v)
    (hr0 : 0 < r) (hr1 : r < 1) : StrictAnti (geomEdges l r) :=
  strictAnti_nat_of_succ_lt (geomEdges_succ_lt l r hl hpos hr0 hr1)

theorem strictAnti_descOn (edges : ℕ → ℚ) (M : ℕ) (h : StrictAnti edges) :
    DescOn edges M := by
  intro j _ k _ hjk
  exact h hjk

/-- Unfolding equation for `spNv` with an ordinary `Finset.range` sum, in the
division form used by the specification. -/

theorem spNv_eq (sqrtF : ℚ → ℚ) (edges na hbar : ℕ → ℚ) (i : ℕ) :
    spNv sqrtF edges na hbar i =
      (na i - ∑ j ∈ Finset.range i,
        interProb sqrtF edges (j + 1) * hbar (j + 1) *
          spNv sqrtF edges na hbar (i - j - 1)) /
      (interProb sqrtF edges 0 * hbar i) := by
  rw [spNv, one_div_mul_eq_div]
  congr 2
  exact Finset.sum_attach (Finset.range i)
    (fun j => interProb sqrtF edges (j + 1) * hbar (j + 1) *
      spNv sqrtF edges na hbar (i - j - 1))

/-! ### Evaluation lemmas for the Saltikov kernel computation -/

theorem saltikovCoeff_length : saltikovCoeff.length = 12 := rfl

theorem saltikovCoeff_get?_of_lt (k : ℕ) (hk : k < 12) :
    saltikovCoeff.get? k = some (saltikovCoeffFn k) := by
  cases h : saltikovCoeff.get? k with
  | none =>
    rw [List.get?_eq_none] at h
    rw [saltikovCoeff_length] at h
    omega
  | some c =>
    unfold saltikovCoeffFn
    rw [h]
    rfl

theorem saltikovCoeff_get?_of_ge (k : ℕ) (hk : 12 ≤ k) :
    saltikovCoeff.get? k = none := by
  rw [List.get?_eq_none, saltikovCoeff_length]
  exact hk

theorem saltikovSum_foldl (na : ℕ → ℚ) (i : ℕ) (n : ℕ) (hn : n ≤ 12) (s : ℚ) :
    (List.range n).foldl (saltikovStep na i) (some s) =
      some (s + ∑ k ∈ Finset.range n, saltikovCoeffFn k * na (i - k)) := by
  induction n generalizing s with
  | zero => simp
  | succ m ih =>
    rw [List.range_succ, List.foldl_append, ih (by omega), List.foldl_cons, List.foldl_nil]
    unfold saltikovStep
    rw [Option.some_bind]
    simp only [saltikovCoeff_get?_of_lt m (by omega), Option.map_some']
    rw [Finset.sum_range_succ, add_assoc]

theorem saltikovSum_eq (na : ℕ → ℚ) (i : ℕ) (hi : i ≤ 11) :
    saltikovSum na i =
      some (∑ k ∈ Finset.range (i + 1), saltikovCoeffFn k * na (i - k)) := by
  unfold saltikovSum
  rw [saltikovSum_foldl na i (i + 1) (by omega) 0, zero_add]

theorem saltikovSum_fail (na : ℕ → ℚ) (i : ℕ) (hi : 12 ≤ i) :
    saltikovSum na i = none := by
  unfold saltikovSum
  have h13 : 13 ≤ i + 1 := by omega
  obtain ⟨d, hd⟩ : ∃ d, i + 1 = 13 + d := ⟨i + 1 - 13, by omega⟩
  rw [hd]
  have hsplit : List.range (13 + d) = List.range 13 ++ (List.range d).map (13 + ·) :=
    List.range_add 13 d
  rw [hsplit, List.foldl_append]
  have h12 : (List.range 13).foldl (saltikovStep na i) (some 0) = none := by
    have : List.range 13 = List.range 12 ++ [12] := by rw [← List.range_succ]
    rw [this, List.foldl_append, saltikovSum_foldl na i 12 le_rfl 0,
      List.foldl_cons, List.foldl_nil]
    unfold saltikovStep
    rw [Option.some_bind]
    simp only [saltikovCoeff_get?_of_ge 12 le_rfl, Option.map_none']
  rw [h12]
  induction (List.range d).map (13 + ·) with
  | nil => rfl
  | cons a l ihl => rw [List.foldl_cons]; exact ihl

theorem optionMapList_eq_some (f : ℕ → Option ℚ) (g : ℕ → ℚ) (l : List ℕ)
    (h : ∀ a ∈ l, f a = some (g a)) : optionMapList f l = some (l.map g) := by
  induction l with
  | nil => rfl
  | cons a l ih =>
    unfold optionMapList
    rw [h a (List.mem_cons_self a l), ih (fun b hb => h b (List.mem_cons_of_mem a hb))]
    rfl

theorem optionMapList_none (f : ℕ → Option ℚ) (a : ℕ) (l : List ℕ)
    (ha : a ∈ l) (hfa : f a = none) : optionMapList f l = none := by
  induction l with
  | nil => cases ha
  | cons b l ih =>
    unfold optionMapList
    rcases List.mem_cons.mp ha with h | h
    · subst h
      rw [hfa]
      rfl
    · cases hfb : f b with
      | none => rfl
      | some c => rw [Option.some_bind, ih h, Option.map_none']

theorem saltikovNv_some (na hbar : ℕ → ℚ) (N : ℕ) (hN : N ≤ 12) :
    saltikovNv na hbar N = some ((List.range N).map (fun i =>
      1 / hbar i * (∑ k ∈ Finset.range (i + 1), saltikovCoeffFn k * na (i - k)))) := by
  apply optionMapList_eq_some
  intro a ha
  have haN : a < N := List.mem_range.mp ha
  rw [saltikovSum_eq na a (by omega)]
  rfl

/-! ### Counting lemmas for area-density conservation -/

theorem sum_indicator_int (c : ℤ) (N : ℕ) :
    (∑ i ∈ Finset.range N, if c = (i : ℤ) then (1 : ℕ) else 0) =
      if 0 ≤ c ∧ c < (N : ℤ) then 1 else 0 := by
  induction N with
  | zero =>
    rw [Finset.range_zero, Finset.sum_empty, if_neg]
    push_cast
    omega
  | succ n ih =>
    rw [Finset.sum_range_succ, ih]
    split_ifs <;> push_cast at * <;> omega

theorem countP_partition (idx : ℚ → ℤ) (N : ℕ) (l : List ℚ) :
    (∑ i ∈ Finset.range N, l.countP (fun v => decide (idx v = (i : ℤ)))) =
      l.countP (fun v => decide (0 ≤ idx v ∧ idx v < (N : ℤ))) := by
  induction l with
  | nil => simp
  | cons x xs ih =>
    simp only [List.countP_cons, decide_eq_true_eq]
    rw [Finset.sum_add_distrib, ih]
    congr 1
    exact sum_indicator_int (idx x) N

/-! ## Claims -/

/-- Claim C9: the simple area/volume correction (ChengLemlich) satisfies
`nv[i] * hbar[i] = na[i]` exactly for every bin `i` with `hbar[i] ≠ 0`; the
computation is a pure element-wise division, with no information flowing
between bins. -/

theorem cl_simple_correction (na hbar : ℕ → ℚ) (i : ℕ) (h : hbar i ≠ 0) :
    clNv na hbar i * hbar i = na i :=
  div_mul_cancel₀ (na i) h

/-- Witness for C9 at `na = 3`, `hbar = 2`, bin 0. -/

theorem cl_simple_correction_witness :
    ((fun _ : ℕ => (2 : ℚ)) 0 ≠ 0) ∧
      clNv (fun _ => 3) (fun _ => 2) 0 * (2 : ℚ) = 3 :=
  ⟨by decide, cl_simple_correction (fun _ => 3) (fun _ => 2) 0 (by decide)⟩

/-- Claim C3: in the geometric recursive unfolding (SahagianProussevitch),
the intersection probabilities satisfy
`P[i] = (1/edge[0]) * (sqrt(edge[0]^2 - edge[i+1]^2) - sqrt(edge[0]^2 - edge[i]^2))`
and the volume densities, solved in increasing bin order, satisfy
`nv[i] = (na[i] - Σ_{j<i} P[j+1]*hbar[j+1]*nv[i-j-1]) / (P[0]*hbar[i])`,
each `nv[i]` depending only on previously solved entries at strictly smaller
indices (the recursion is well founded on the bin index). -/

theorem sp_recursive_unfolding (sqrtF : ℚ → ℚ) (edges na hbar : ℕ → ℚ) (i : ℕ) :
    interProb sqrtF edges i =
      (1 / edges 0) *
        (sqrtF (edges 0 ^ 2 - edges (i + 1) ^ 2) - sqrtF (edges 0 ^ 2 - edges i ^ 2)) ∧
    spNv sqrtF edges na hbar i =
      (na i - ∑ j ∈ Finset.range i,
        interProb sqrtF edges (j + 1) * hbar (j + 1) *
          spNv sqrtF edges na hbar (i - j - 1)) /
      (interProb sqrtF edges 0 * hbar i) :=
  ⟨rfl, spNv_eq sqrtF edges na hbar i⟩

/-- Counterexample to claim C2 as stated: with one bin, edges `5, 3`, an exact
square root, `na[0] = hbar[0] = 1`, the code computes
`nv[0] = na[0]/(P[0]*hbar[0]) = 5/4`, not `na[0]/hbar[0] = 1`. -/

theorem sp_one_bin_counterexample :
    spNv cSqrt cEdgesB cOne cOne 0 ≠ cOne 0 / cOne 0 := by
  rw [spNv_eq]
  norm_num [interProb, cSqrt, cEdgesB, cOne]

/-- Claim C2 (amended): with bin count `N = 1` the geometric recursive
unfolding yields `nv[0] = na[0] / (P[0] * hbar[0])` — the `i = 0` instance of
the general recurrence, which reduces to `na[0]/hbar[0]` only when the
zeroth intersection probability equals 1. -/

theorem sp_one_bin_amended (sqrtF : ℚ → ℚ) (edges na hbar : ℕ → ℚ) :
    spNv sqrtF edges na hbar 0 = na 0 / (interProb sqrtF edges 0 * hbar 0) := by
  rw [spNv_eq]
  rw [Finset.range_zero, Finset.sum_empty, sub_zero]

/-- Claim C4: on strictly descending edges `edge[0..N]`, `bin_data` assigns to
a measurement `v` with `edge[N] < v ≤ edge[0]` the unique (hence smallest)
index `i` with `edge[i] ≥ v > edge[i+1]`; a value exactly equal to `edge[0]`
maps to index 0; a value at or below `edge[N]` is pushed to the boundary
index `N`, which lies outside `[0, N)` and is excluded from the per-bin
aggregates. -/

theorem bin_assignment_digitize (edges : ℕ → ℚ) (N : ℕ) (v : ℚ)
    (hdesc : DescOn edges (N + 1)) :
    (edges N < v → v ≤ edges 0 →
      ∃ i, i < N ∧ v ≤ edges i ∧ edges (i + 1) < v ∧ binIdx edges (N + 1) v = (i : ℤ)) ∧
    (∀ i, i < N → v ≤ edges i → edges (i + 1) < v → binIdx edges (N + 1) v = (i : ℤ)) ∧
    (v = edges 0 → binIdx edges (N + 1) v = 0) ∧
    (v ≤ edges N → binIdx edges (N + 1) v = (N : ℤ)) := by
  have huniq : ∀ i, i < N → v ≤ edges i → edges (i + 1) < v →
      binIdx edges (N + 1) v = (i : ℤ) := by
    intro i hi h1 h2
    unfold binIdx
    rw [digitizeDesc_of_bracket edges (N + 1) v i hdesc (by omega) h1 h2]
    push_cast
    ring
  refine ⟨?_, huniq, ?_, ?_⟩
  · intro hlow hhigh
    have hspec : v ≤ edges (Nat.findGreatest (fun k => v ≤ edges k) N) :=
      Nat.findGreatest_spec (P := fun k => v ≤ edges k) (Nat.zero_le N) hhigh
    have hle : Nat.findGreatest (fun k => v ≤ edges k) N ≤ N :=
      Nat.findGreatest_le N
    have hlt : Nat.findGreatest (fun k => v ≤ edges k) N < N := by
      rcases eq_or_lt_of_le hle with he | h
      · rw [he] at hspec
        exact absurd hspec (not_le.mpr hlow)
      · exact h
    have hnext : ¬ v ≤ edges (Nat.findGreatest (fun k => v ≤ edges k) N + 1) :=
      Nat.findGreatest_is_greatest (P := fun k => v ≤ edges k)
        (Nat.lt_succ_self _) (by omega)
    exact ⟨Nat.findGreatest (fun k => v ≤ edges k) N, hlt, hspec, not_le.mp hnext,
      huniq _ hlt hspec (not_le.mp hnext)⟩
  · intro hv
    unfold binIdx
    rw [digitizeDesc_top edges (N + 1) v hdesc (by omega) hv]
    ring
  · intro hv
    unfold binIdx
    rw [digitizeDesc_bottom edges (N + 1) v hdesc (by omega) hv]
    push_cast
    ring

/-- Witness for C4 on edges `4, 3, 2, 1` (`N = 3`): the in-range value `5/2`
gets bin 1, the value `4 = edge[0]` gets bin 0, the value `1/2 ≤ edge[3]`
gets the boundary index 3. -/

theorem cEdgesA_desc (M : ℕ) : DescOn cEdgesA M := by
  intro j _ k _ hjk
  unfold cEdgesA
  have h : (j : ℚ) < (k : ℚ) := by exact_mod_cast hjk
  linarith

theorem bin_assignment_digitize_witness :
    DescOn cEdgesA 4 ∧ binIdx cEdgesA 4 (5/2) = 1 ∧ binIdx cEdgesA 4 4 = 0 ∧
      binIdx cEdgesA 4 (1/2) = 3 := by
  refine ⟨cEdgesA_desc 4, ?_, ?_, ?_⟩
  · exact (bin_assignment_digitize cEdgesA 3 (5/2) (cEdgesA_desc 4)).2.1 1 (by norm_num)
      (by norm_num [cEdgesA]) (by norm_num [cEdgesA])
  · exact (bin_assignment_digitize cEdgesA 3 4 (cEdgesA_desc 4)).2.2.1 (by norm_num [cEdgesA])
  · exact (bin_assignment_digitize cEdgesA 3 (1/2) (cEdgesA_desc 4)).2.2.2
      (by norm_num [cEdgesA])

/-- Claim C5: for a non-empty array of positive measurements and any bin
count `N > 0`, both linear and geometric bin construction produce strictly
monotonically decreasing edges (`edge[i+1] < edge[i]` across all `N` bins),
strictly positive widths, and centers `center[i] = edge[i] - width[i]/2`
(the geometric ratio `r` models `10^(-0.1) ∈ (0,1)`). -/

theorem bins_construction_invariant (l : List ℚ) (N : ℕ) (r : ℚ)
    (hl : l ≠ []) (hpos : ∀ v ∈ l, 0 < v) (hN : 0 < N) (hr0 : 0 < r) (hr1 : r < 1) :
    (∀ i, i < N → linEdges l N (i + 1) < linEdges l N i ∧
      0 < binWidth (linEdges l N) i ∧
      binCenter (linEdges l N) i = linEdges l N i - binWidth (linEdges l N) i / 2) ∧
    (∀ i, i < N → geomEdges l r (i + 1) < geomEdges l r i ∧
      0 < binWidth (geomEdges l r) i ∧
      binCenter (geomEdges l r) i = geomEdges l r i - binWidth (geomEdges l r) i / 2) := by
  constructor
  · intro i _
    have hlt := linEdges_succ_lt l N hl hpos hN i
    refine ⟨hlt, ?_, rfl⟩
    unfold binWidth
    rw [abs_pos]
    exact sub_ne_zero.mpr (ne_of_lt hlt)
  · intro i _
    have hlt := geomEdges_succ_lt l r hl hpos hr0 hr1 i
    refine ⟨hlt, ?_, rfl⟩
    unfold binWidth
    rw [abs_pos]
    exact sub_ne_zero.mpr (ne_of_lt hlt)

/-- Witness for C5 on measurements `[1, 2]`, one bin, geometric ratio `4/5`. -/

theorem bins_construction_invariant_witness :
    (cList ≠ [] ∧ (∀ v ∈ cList, 0 < v) ∧ 0 < 1 ∧ (0 : ℚ) < 4/5 ∧ (4/5 : ℚ) < 1) ∧
    linEdges cList 1 1 < linEdges cList 1 0 ∧ 0 < binWidth (linEdges cList 1) 0 ∧
    geomEdges cList (4/5) 1 < geomEdges cList (4/5) 0 ∧
      0 < binWidth (geomEdges cList (4/5)) 0 := by
  have h := bins_construction_invariant cList 1 (4/5) (by decide)
    (by norm_num [cList]) (by norm_num) (by norm_num) (by norm_num)
  exact ⟨⟨by decide, by norm_num [cList], by norm_num, by norm_num, by norm_num⟩,
    (h.1 0 (by norm_num)).1, (h.1 0 (by norm_num)).2.1,
    (h.2 0 (by norm_num)).1, (h.2 0 (by norm_num)).2.1⟩

/-- Claim C6: for every measurement array, bin count `N > 0` and positive
reference area, `Σ_{i<N} na[i] * reference_area` equals the number of
measurements whose assigned bin index lies in `[0, N)`; out-of-range
measurements contribute to no bin's area density. -/

theorem na_count_conservation (edges : ℕ → ℚ) (l : List ℚ) (N : ℕ) (A : ℚ)
    (hl : l ≠ []) (hN : 0 < N) (hA : 0 < A) :
    (∑ i ∈ Finset.range N, computeNa edges (N + 1) l A i * A) =
      (inRangeCount edges (N + 1) l N : ℚ) := by
  have hA0 : A ≠ 0 := ne_of_gt hA
  unfold computeNa inRangeCount
  calc (∑ i ∈ Finset.range N,
        ((l.countP (fun v => decide (binIdx edges (N + 1) v = (i : ℤ)))) : ℚ) / A * A)
      = ∑ i ∈ Finset.range N,
        ((l.countP (fun v => decide (binIdx edges (N + 1) v = (i : ℤ)))) : ℚ) := by
        apply Finset.sum_congr rfl
        intro i _
        rw [div_mul_cancel₀ _ hA0]
    _ = ((∑ i ∈ Finset.range N,
        l.countP (fun v => decide (binIdx edges (N + 1) v = (i : ℤ)))) : ℕ) := by
        rw [Nat.cast_sum]
    _ = _ := by rw [countP_partition (binIdx edges (N + 1)) N l]

/-- Witness for C6: edges `4, 3, 2, 1` (`N = 3`), measurements `[5/2, 3/2]`,
reference area 2. -/

theorem na_count_conservation_witness :
    ((0 : ℚ) < 2) ∧
    (∑ i ∈ Finset.range 3, computeNa cEdgesA 4 [5/2, 3/2] 2 i * 2) =
      (inRangeCount cEdgesA 4 [5/2, 3/2] 3 : ℚ) :=
  ⟨by norm_num,
    na_count_conservation cEdgesA [5/2, 3/2] 3 2 (by decide) (by decide) (by norm_num)⟩

/-- Claim C10: with linear or geometric bins built from a non-empty array of
positive measurements and `N > 0`, every assigned bin index lies in `[0, N]`
(it can equal `N` but never exceed it), and for linear bins the top edge
`max(measurements) * 1.0000001` strictly exceeds every measurement, so no
measurement maps to a negative index. -/

theorem bin_index_bounds (l : List ℚ) (N : ℕ) (r : ℚ)
    (hl : l ≠ []) (hpos : ∀ v ∈ l, 0 < v) (hN : 0 < N) (hr0 : 0 < r) (hr1 : r < 1) :
    (∀ v ∈ l, v < linEdges l N 0) ∧
    (∀ v ∈ l, 0 ≤ binIdx (linEdges l N) (N + 1) v ∧
      binIdx (linEdges l N) (N + 1) v ≤ (N : ℤ)) ∧
    (∀ v ∈ l, 0 ≤ binIdx (geomEdges l r) (N + 1) v ∧
      binIdx (geomEdges l r) (N + 1) v ≤ (N : ℤ)) := by
  have hmax : 0 < npMax l := npMax_pos l hl hpos
  have hlt : ∀ v ∈ l, v < linEdges l N 0 := by
    intro v hv
    rw [linEdges_zero]
    have h1 : v ≤ npMax l := le_npMax l v hv
    have h2 : npMax l < npMax l * epsHi := by
      have he : (1 : ℚ) < epsHi := by norm_num [epsHi]
      nlinarith
    linarith
  refine ⟨hlt, ?_, ?_⟩
  · intro v hv
    have hpos1 : 0 < digitizeDesc (linEdges l N) (N + 1) v :=
      digitizeDesc_pos (linEdges l N) (N + 1) v (by omega) (le_of_lt (hlt v hv))
    have hle1 := digitizeDesc_le (linEdges l N) (N + 1) v
    unfold binIdx
    omega
  · intro v hv
    have h0 : v ≤ geomEdges l r 0 := by
      rw [geomEdges_zero]
      exact le_npMax l v hv
    have hpos1 := digitizeDesc_pos (geomEdges l r) (N + 1) v (by omega) h0
    have hle1 := digitizeDesc_le (geomEdges l r) (N + 1) v
    unfold binIdx
    omega

/-- Witness for C10 on measurements `[1, 2]`, one bin, geometric ratio `4/5`,
checked at the measurement `1`. -/

theorem bin_index_bounds_witness :
    (cList ≠ [] ∧ (1 : ℚ) ∈ cList) ∧
    (1 : ℚ) < linEdges cList 1 0 ∧
    (0 ≤ binIdx (linEdges cList 1) 2 1 ∧ binIdx (linEdges cList 1) 2 1 ≤ (1 : ℤ)) ∧
    (0 ≤ binIdx (geomEdges cList (4/5)) 2 1 ∧
      binIdx (geomEdges cList (4/5)) 2 1 ≤ (1 : ℤ)) := by
  have h := bin_index_bounds cList 1 (4/5) (by decide) (by norm_num [cList])
    (by decide) (by norm_num) (by norm_num)
  have hmem : (1 : ℚ) ∈ cList := by norm_num [cList]
  exact ⟨⟨by decide, hmem⟩, h.1 1 hmem, h.2.1 1 hmem, h.2.2 1 hmem⟩

/-- Claim C7: the log-transform round trip.  With
`n[i] = nv[i] * 1e9 / (width[i] * 1e-3 * norm * factor)` (`factor = 2` for the
radius convention, `1` for diameter) and `lnn[i] = ln(n[i])`, recovering
`exp(lnn[i]) * width[i] * 1e-3 * norm * factor / 1e9` reproduces `nv[i]`
exactly, hence within the claimed `1e-9` relative tolerance, whenever
`nv[i] > 0`. -/

theorem lnn_log_roundtrip (nv width nrm : ℝ) (lengthType : String)
    (hnv : 0 < nv) (hw : 0 < width) (hn : 0 < nrm) :
    lnnFactor "radius" = 2 ∧ lnnFactor "diameter" = 1 ∧
    lnnRecover (toLnn nv width nrm lengthType) width nrm lengthType = nv ∧
    |lnnRecover (toLnn nv width nrm lengthType) width nrm lengthType - nv| ≤
      1e-9 * nv := by
  have hfac : 0 < lnnFactor lengthType := by
    unfold lnnFactor
    split <;> norm_num
  have hdiv : 0 < lnnDivisor width nrm lengthType := by
    unfold lnnDivisor
    have h3 : (0 : ℝ) < 1e-3 := by norm_num
    exact mul_pos (mul_pos (mul_pos hw h3) hn) hfac
  have htoN : 0 < toN nv width nrm lengthType := by
    unfold toN
    exact div_pos (by positivity) hdiv
  have hrec : lnnRecover (toLnn nv width nrm lengthType) width nrm lengthType = nv := by
    unfold lnnRecover toLnn
    rw [Real.exp_log htoN]
    unfold toN lnnDivisor
    have hw0 : width ≠ 0 := ne_of_gt hw
    have hn0 : nrm ≠ 0 := ne_of_gt hn
    have hf0 : lnnFactor lengthType ≠ 0 := ne_of_gt hfac
    field_simp
    ring
  refine ⟨?_, ?_, hrec, ?_⟩
  · simp only [lnnFactor]
    rw [if_pos (by decide)]
  · simp only [lnnFactor]
    rw [if_neg (by decide)]
  · rw [hrec]
    simp only [sub_self, abs_zero]
    positivity

/-- Witness for C7 at `nv = width = norm = 1`, radius convention. -/

theorem lnn_log_roundtrip_witness :
    ((0 : ℝ) < 1) ∧ lnnRecover (toLnn 1 1 1 "radius") 1 1 "radius" = 1 :=
  ⟨one_pos, (lnn_log_roundtrip 1 1 1 "radius" one_pos one_pos one_pos).2.2.1⟩

/-- Claim C8: when a non-bin-center characteristic-size method (`mean` or
`median`) is requested over positive measurements, a bin with zero assigned
measurements falls back to the bin's center with the advisory flag set, and
the computation is total (never aborts); a bin with at least one assigned
measurement gets the numpy aggregate of its measurements and no advisory. -/

theorem hbar_empty_bin_fallback (method : String) (centers : ℕ → ℚ) (meas : List ℚ)
    (idx : ℚ → ℤ) (hm : method = "mean" ∨ method = "median")
    (hpos : ∀ v ∈ meas, 0 < v) (i : ℕ) :
    (binVesicles meas idx i = [] →
      computeHbar method centers meas idx i = (centers i, true)) ∧
    (binVesicles meas idx i ≠ [] →
      computeHbar method centers meas idx i =
        (hbarAggregate method (binVesicles meas idx i), false)) := by
  have hmb : method ≠ "bin_center" := by
    rcases hm with h | h <;> subst h <;> decide
  constructor
  · intro hemp
    unfold computeHbar
    rw [if_neg hmb, if_pos (by rw [hemp]; rfl)]
  · intro hne
    have hany : npAnyNonzero (binVesicles meas idx i) = true := by
      obtain ⟨x, hx⟩ := List.exists_mem_of_ne_nil _ hne
      have hxm : x ∈ meas := by
        unfold binVesicles at hx
        exact List.mem_of_mem_filter hx
      have hx0 : 0 < x := hpos x hxm
      unfold npAnyNonzero
      rw [List.any_eq_true]
      exact ⟨x, hx, decide_eq_true (ne_of_gt hx0)⟩
    unfold computeHbar
    rw [if_neg hmb, if_neg (by rw [hany]; decide)]

/-- Witness for C8: measurements `[1, 2]` with `1` in bin 0 and `2` in bin 1;
bin 0 is non-empty and aggregated, bin 5 is empty and falls back to its
center with the advisory flag. -/

theorem hbar_empty_bin_fallback_witness :
    (("mean" = "mean" ∨ ("mean" : String) = "median") ∧ (∀ v ∈ cList, 0 < v)) ∧
    computeHbar "mean" cCenters cList cIdx 0 =
      (hbarAggregate "mean" (binVesicles cList cIdx 0), false) ∧
    computeHbar "mean" cCenters cList cIdx 5 = (cCenters 5, true) := by
  have h0 := hbar_empty_bin_fallback "mean" cCenters cList cIdx (Or.inl rfl)
    (by norm_num [cList]) 0
  have h5 := hbar_empty_bin_fallback "mean" cCenters cList cIdx (Or.inl rfl)
    (by norm_num [cList]) 5
  exact ⟨⟨Or.inl rfl, by norm_num [cList]⟩, h0.2 (by decide), h5.1 (by decide)⟩

/-- Counterexample to claim C1 as stated: the kernel is NOT truncated by the
code.  With 13 bins the loop reaches `coeff[12]`, which raises `IndexError`
(modelled as `none`), so the computation does not succeed for every `N`:
already at `N = 13` with all-ones inputs it fails. -/

theorem saltikov_beyond_twelve_fails : saltikovNv cOne cOne 13 = none := by
  unfold saltikovNv
  apply optionMapList_none _ 12 (List.range 13) (List.mem_range.mpr (by omega))
  rw [saltikovSum_fail cOne 12 le_rfl]
  rfl

/-- Claim C1 (amended): for bin counts `N ≤ 12` the Saltikov convolution
computes `nv[i] = (Σ_{k=0}^{min(i,11)} c[k] * na[i-k]) / hbar[i]` for every
`i < N`; for `N > 12` the computation fails with an out-of-range kernel index
instead of truncating the kernel. -/

theorem saltikov_truncated_kernel (na hbar : ℕ → ℚ) (N : ℕ) (hN0 : 0 < N)
    (hN : N ≤ 12) (i : ℕ) (hi : i < N) :
    (saltikovNv na hbar N).map (fun l => l.getD i 0) =
      some ((∑ k ∈ Finset.range (min i 11 + 1), saltikovCoeffFn k * na (i - k)) /
        hbar i) := by
  rw [saltikovNv_some na hbar N hN, Option.map_some']
  congr 1
  have hgd : ((List.range N).map (fun j =>
      1 / hbar j * (∑ k ∈ Finset.range (j + 1), saltikovCoeffFn k * na (j - k)))).getD i 0 =
      1 / hbar i * (∑ k ∈ Finset.range (i + 1), saltikovCoeffFn k * na (i - k)) := by
    rw [List.getD_eq_get?, List.get?_map, List.get?_range hi]
    rfl
  rw [hgd, min_eq_left (by omega : i ≤ 11), one_div_mul_eq_div]

/-- Witness for the amended C1 at `N = 2`, `i = 1`, all-ones inputs. -/

theorem saltikov_truncated_kernel_witness :
    (0 < 2 ∧ 2 ≤ 12 ∧ 1 < 2) ∧
    (saltikovNv cOne cOne 2).map (fun l => l.getD 1 0) =
      some ((∑ k ∈ Finset.range (min 1 11 + 1), saltikovCoeffFn k * cOne (1 - k)) /
        cOne 1) :=
  ⟨⟨by decide, by decide, by decide⟩,
    saltikov_truncated_kernel cOne cOne 2 (by decide) (by decide) 1 (by decide)⟩
